import Mathlib

/-!
# Verification of the win-light indexing/search core

Shallow embedding of the Rust sources under `src-tauri/src/` (`db.rs`,
`indexer.rs`, `searcher.rs`) and proofs about them.

Modelling conventions:
* Rust `String`/`&str` are Lean `String`; byte offsets of ASCII strings are
  modelled as character offsets.
* SQLite `LOWER` and Rust `to_lowercase` (applied here only to ASCII data)
  are modelled by ASCII lowercasing `lowerChar`.
* The SQLite `files` table is a `List FileEntry`; SQL statements are
  translated row-by-row (`LIKE ... ESCAPE '\'` gets a full pattern matcher,
  `ORDER BY` becomes a mergeSort with the corresponding lexicographic key,
  `LIMIT` becomes `List.take`).
* `f64` arithmetic in the math evaluator is modelled by exact rationals `ℚ`;
  every concrete computation proved about it is exactly representable.
* Filesystem state (`Path::is_dir`, existence checks) and wall-clock time are
  passed as explicit parameters.
* The third-party fuzzy matcher (`SkimMatcherV2`) and the logarithmic usage
  boost are opaque to the claims proved here and are taken as function
  parameters.
-/

/-- ASCII lowercasing of one character: SQLite `LOWER` semantics, and
Rust `to_lowercase` restricted to ASCII. -/
def lowerChar (c : Char) : Char :=
  if 65 ≤ c.toNat ∧ c.toNat ≤ 90 then Char.ofNat (c.toNat + 32) else c

/-- ASCII lowercasing of a character list. -/
def lowerL (s : List Char) : List Char := s.map lowerChar

/-- ASCII lowercasing of a string. -/
def lowerStr (s : String) : String := ⟨lowerL s.data⟩

/-- Whether `q` occurs as a contiguous substring of `s` (Rust `str::contains` with a
literal pattern). -/
def substrB (q s : List Char) : Bool :=
  (List.range (s.length + 1)).any fun n => q.isPrefixOf (s.drop n)

/-- String-level substring containment. -/
def containsStr (s q : String) : Bool := substrB q.data s.data

/-!
## Indexer: `classify_file` (indexer.rs lines 9-61)

`Path::new(filepath).is_dir()` consults the filesystem; it is modelled by the
explicit parameter `is_dir`.
-/

/-- Extensions classified as documents (indexer.rs lines 29-35). -/
def document_exts : List String :=
  ["pdf", "doc", "docx", "xls", "xlsx", "ppt", "pptx",
   "txt", "md", "csv", "rtf", "odt", "ods", "odp"]

/-- Extensions classified as images (indexer.rs lines 38-43). -/
def image_exts : List String :=
  ["png", "jpg", "jpeg", "gif", "bmp", "svg", "webp", "ico"]

/-- Extensions classified as code (indexer.rs lines 46-53). -/
def code_exts : List String :=
  ["rs", "py", "js", "ts", "jsx", "tsx", "java", "c", "cpp",
   "h", "cs", "go", "rb", "php", "html", "css", "json",
   "xml", "yaml", "yml", "toml"]

/-- The classifier `classify_file` from indexer.rs: determines the `file_type` category from
extension and path context.  `is_dir` stands for `Path::new(filepath).is_dir()`. -/
def classify_file (extension filepath : String) (is_dir : Bool) : String :=
  let ext_lower := lowerStr extension
  let path_lower := lowerStr filepath
  if ext_lower = "exe" ∨ ext_lower = "msi" ∨ ext_lower = "appx" ∨ ext_lower = "msix" then
    "app"
  else if ext_lower = "lnk" ∨ ext_lower = "url" then
    "shortcut"
  else if is_dir then
    "folder"
  else if document_exts.contains ext_lower then
    "document"
  else if image_exts.contains ext_lower then
    "image"
  else if code_exts.contains ext_lower then
    "code"
  else if containsStr path_lower "start menu" then
    "app"
  else
    "other"

/-- The classifier rule list exactly as the specification words it: app
extensions; shortcut extensions; directory on disk; document extensions;
image extensions; code extensions; path contains "start menu"; otherwise
other — first match wins. -/
def classifySpecOrder (extension filepath : String) (is_dir : Bool) : String :=
  let ext_lower := lowerStr extension
  let path_lower := lowerStr filepath
  if ext_lower = "exe" ∨ ext_lower = "msi" ∨ ext_lower = "appx" ∨ ext_lower = "msix" then
    "app"
  else if ext_lower = "lnk" ∨ ext_lower = "url" then
    "shortcut"
  else if is_dir then
    "folder"
  else if document_exts.contains ext_lower then
    "document"
  else if image_exts.contains ext_lower then
    "image"
  else if code_exts.contains ext_lower then
    "code"
  else if containsStr path_lower "start menu" then
    "app"
  else
    "other"

/-!
## Storage layer: the `files` table (db.rs)

A table is a list of rows; `filepath` is UNIQUE (invariant proved in C4),
`id` is the AUTOINCREMENT surrogate key.  `icon_path` is never written by the
core.  SQL statements are translated row-by-row below.
-/

/-- One row of the `files` table (db.rs lines 7-19 / 51-62). -/
structure FileEntry where
  id : Int
  filename : String
  filepath : String
  extension : String
  file_size : Int
  modified_at : Int
  file_type : String
  click_count : Int
  last_accessed : Int
  icon_path : Option String
deriving Repr, DecidableEq

/-- AUTOINCREMENT: a fresh id strictly larger than every id in the table. -/
def freshId (t : List FileEntry) : Int :=
  (t.map FileEntry.id).foldr max 0 + 1

/-- The `ON CONFLICT(filepath) DO UPDATE` assignment: `filename`, `file_size`,
`modified_at` and `file_type` are overwritten; `extension`, `click_count`,
`last_accessed`, `icon_path` and `id` are untouched (db.rs lines 93-97). -/
def updateRow (filename : String) (file_size modified_at : Int) (file_type : String)
    (r : FileEntry) : FileEntry :=
  { r with filename := filename, file_size := file_size,
           modified_at := modified_at, file_type := file_type }

/-- Model of `upsert_file` (db.rs lines 80-101): insert a new row, or on `filepath`
conflict update the metadata fields in place. -/
def upsert_file (t : List FileEntry) (filename filepath extension : String)
    (file_size modified_at : Int) (file_type : String) : List FileEntry :=
  if t.any fun r => r.filepath == filepath then
    t.map fun r =>
      if r.filepath == filepath then updateRow filename file_size modified_at file_type r else r
  else
    t ++ [{ id := freshId t, filename := filename, filepath := filepath,
            extension := extension, file_size := file_size, modified_at := modified_at,
            file_type := file_type, click_count := 0, last_accessed := 0,
            icon_path := none }]

/-- The tuple type of `upsert_files_batch` entries:
`(filename, filepath, extension, file_size, modified_at, file_type)`. -/
abbrev EntryData := String × String × String × Int × Int × String

/-- Apply one batch entry. -/
def upsertEntry (t : List FileEntry) (e : EntryData) : List FileEntry :=
  upsert_file t e.1 e.2.1 e.2.2.1 e.2.2.2.1 e.2.2.2.2.1 e.2.2.2.2.2

/-- Model of `upsert_files_batch` (db.rs lines 104-123): the same upsert statement for
each entry, in order, inside one transaction. -/
def upsert_files_batch (t : List FileEntry) (entries : List EntryData) : List FileEntry :=
  entries.foldl upsertEntry t

/-- Model of `record_click` (db.rs lines 188-196): bump `click_count` and set
`last_accessed` to the current time on the row matching `filepath`. -/
def record_click (t : List FileEntry) (filepath : String) (now : Int) : List FileEntry :=
  t.map fun r =>
    if r.filepath == filepath then
      { r with click_count := r.click_count + 1, last_accessed := now }
    else r

/-- Model of `remove_missing_files` (db.rs lines 199-215): delete rows whose filepath no
longer exists on disk; `exists_on_disk` stands for `Path::new(path).exists()`. -/
def remove_missing_files (t : List FileEntry) (exists_on_disk : String → Bool) :
    List FileEntry :=
  t.filter fun r => exists_on_disk r.filepath

/-- Model of `get_all_filenames` (db.rs lines 247-270): project every row onto
`(id, filename, filepath, file_type, click_count, last_accessed, modified_at)`. -/
def get_all_filenames (t : List FileEntry) :
    List (Int × String × String × String × Int × Int × Int) :=
  t.map fun r =>
    (r.id, r.filename, r.filepath, r.file_type, r.click_count, r.last_accessed, r.modified_at)

/-!
## Storage layer: `search_files` (db.rs lines 127-185)
-/

/-- SQLite `LIKE` with `ESCAPE '\'`: `%` matches any sequence, `_` matches any
single character, and `\c` matches the literal character `c`. -/
def likeMatch : List Char → List Char → Bool
  | [], s => s.isEmpty
  | '%' :: p, s =>
    likeMatch p s ||
      (match s with
       | [] => false
       | _ :: t => likeMatch ('%' :: p) t)
  | '\\' :: pc :: p', s =>
    (match s with
     | [] => false
     | sc :: s' => sc = pc && likeMatch p' s')
  | '\\' :: [], _ => false
  | '_' :: p, s =>
    (match s with
     | [] => false
     | _ :: s' => likeMatch p s')
  | c :: p, s =>
    (match s with
     | [] => false
     | sc :: s' => sc = c && likeMatch p s')
termination_by p s => (p.length, s.length)
decreasing_by all_goals (simp_wf; omega)

/-- The query escaping of db.rs lines 129-130, one character at a time: percent and
underscore gain a backslash escape prefix. -/
def escChar (c : Char) : List Char :=
  if c = '%' then ['\\', '%'] else if c = '_' then ['\\', '_'] else [c]

/-- The escaping applied to the query before pattern construction
(db.rs lines 129-130). -/
def escL (q : List Char) : List Char :=
  q.foldr (fun c acc => escChar c ++ acc) []

/-- The substring pattern of db.rs line 129: percent, escaped query, percent. -/
def likePatternL (q : String) : List Char := '%' :: (escL q.data ++ ['%'])

/-- The head-anchored pattern of db.rs line 130: escaped query, then percent. -/
def prefixPatternL (q : String) : List Char := escL q.data ++ ['%']

/-- The `WHERE` clause: `LOWER(filename) LIKE LOWER(?3) ESCAPE '\' OR
LOWER(filepath) LIKE LOWER(?3) ESCAPE '\'` (db.rs lines 145-146). -/
def rowMatches (query : String) (r : FileEntry) : Bool :=
  likeMatch (lowerL (likePatternL query)) (lowerL r.filename.data) ||
  likeMatch (lowerL (likePatternL query)) (lowerL r.filepath.data)

/-- The `match_score` CASE expression (db.rs lines 137-143). -/
def matchScoreSql (query : String) (r : FileEntry) : Int :=
  if lowerStr r.filename = lowerStr query then 100
  else if likeMatch (lowerL (prefixPatternL query)) (lowerL r.filename.data) then 75
  else if likeMatch (lowerL (likePatternL query)) (lowerL r.filename.data) then 50
  else if likeMatch (lowerL (likePatternL query)) (lowerL r.filepath.data) then 25
  else 0

/-- The `CASE file_type` ranking (db.rs lines 149-155). -/
def fileTypeRank (t : String) : Int :=
  if t = "app" then 5
  else if t = "shortcut" then 4
  else if t = "document" then 3
  else if t = "folder" then 2
  else 1

/-- The full `ORDER BY` key, all components compared descending
(db.rs lines 147-158). -/
def sqlKey (query : String) (r : FileEntry) : Int × Int × Int × Int × Int :=
  (matchScoreSql query r, fileTypeRank r.file_type, r.click_count,
   r.last_accessed, r.modified_at)

/-- Lexicographic "greater or equal" on the 5-component sort key: row `a` may
come before row `b` in the descending `ORDER BY`. -/
def key5GE (a b : Int × Int × Int × Int × Int) : Bool :=
  decide (b.1 < a.1) ||
    (decide (a.1 = b.1) &&
      (decide (b.2.1 < a.2.1) ||
        (decide (a.2.1 = b.2.1) &&
          (decide (b.2.2.1 < a.2.2.1) ||
            (decide (a.2.2.1 = b.2.2.1) &&
              (decide (b.2.2.2.1 < a.2.2.2.1) ||
                (decide (a.2.2.2.1 = b.2.2.2.1) &&
                  decide (b.2.2.2.2 ≤ a.2.2.2.2))))))))

/-- Row comparator implementing the `ORDER BY` of `search_files`. -/
def sqlLe (query : String) (a b : FileEntry) : Bool :=
  key5GE (sqlKey query a) (sqlKey query b)

/-- Model of `search_files` (db.rs lines 127-185): filter by the `WHERE` clause, sort by
the `ORDER BY` key (ties left unspecified by SQLite; mergeSort fixes one
admissible order), and apply `LIMIT`. -/
def search_files (t : List FileEntry) (query : String) (limit : Nat) : List FileEntry :=
  ((t.filter (rowMatches query)).mergeSort (sqlLe query)).take limit

/-!
## Storage-layer invariants (claims C3 and C4)
-/

/-- The UNIQUE constraint on `filepath`: no two rows share a filepath. -/
def pathsNodup (t : List FileEntry) : Prop :=
  (t.map FileEntry.filepath).Nodup

/-- The write operations the claims range over, with filesystem state and
wall-clock time as explicit payloads. -/
inductive DbOp where
  | upsert (filename filepath extension : String) (file_size modified_at : Int)
      (file_type : String)
  | upsertBatch (entries : List EntryData)
  | click (filepath : String) (now : Int)
  | reconcile (exists_on_disk : String → Bool)

/-- Apply one storage-layer write operation. -/
def applyOp (t : List FileEntry) : DbOp → List FileEntry
  | .upsert fn fp ext sz mt ft => upsert_file t fn fp ext sz mt ft
  | .upsertBatch es => upsert_files_batch t es
  | .click fp now => record_click t fp now
  | .reconcile ex => remove_missing_files t ex

/-- Apply a sequence of write operations in order. -/
def applyOps (t : List FileEntry) (ops : List DbOp) : List FileEntry :=
  ops.foldl applyOp t

/-- Concrete row used by the C3 witness. -/
def c3row : FileEntry :=
  { id := 1, filename := "a.txt", filepath := "C:/p/a.txt", extension := "txt",
    file_size := 10, modified_at := 20, file_type := "document",
    click_count := 3, last_accessed := 4, icon_path := none }

/-!
## The arithmetic evaluator (searcher.rs lines 219-341)

`f64` values are modelled by exact rationals; every concrete computation the
claims exercise is exactly representable.  The Rust recursive-descent parser
recurses on the input structure; here each parser carries a fuel argument
decremented at every call, and `evaluate_math` supplies fuel amply larger
than the call depth any input of that length can produce.
-/

/-- Rust `str::trim_start`, for the ASCII whitespace the evaluator meets. -/
def trimStartL (s : List Char) : List Char := s.dropWhile Char.isWhitespace

/-- Rust `str::trim`. -/
def trimL (s : List Char) : List Char :=
  ((trimStartL s).reverse.dropWhile Char.isWhitespace).reverse

/-- The digit/dot scan of `parse_factor` (searcher.rs lines 322-333): the
maximal prefix of digits containing at most one dot. -/
def scanNum : List Char → Bool → List Char
  | [], _ => []
  | c :: cs, hasDot =>
    if c.isDigit then c :: scanNum cs hasDot
    else if c = '.' ∧ hasDot = false then c :: scanNum cs true
    else []

/-- Decimal digits to a natural number. -/
def natFromDigits (ds : List Char) : Nat :=
  ds.foldl (fun acc c => acc * 10 + (c.toNat - 48)) 0

/-- Rust float parsing of the scanned prefix (digits with at most one dot):
succeeds exactly when a digit is present. -/
def numVal (taken : List Char) : Option ℚ :=
  if taken.any Char.isDigit then
    let ip := taken.takeWhile fun c => c ≠ '.'
    let fr := (taken.dropWhile fun c => c ≠ '.').drop 1
    some ((natFromDigits ip : ℚ) + (natFromDigits fr : ℚ) / (10 : ℚ) ^ fr.length)
  else none

/-- Truncation toward zero, as Rust `f64` to `i64` casts and `%` use. -/
def truncQ (q : ℚ) : Int := if 0 ≤ q then ⌊q⌋ else -⌊-q⌋

/-- Rust `f64::%` (fmod): remainder with the sign of the dividend. -/
def fmodQ (a b : ℚ) : ℚ := a - b * (truncQ (a / b) : ℚ)

mutual

/-- Model of `parse_expression` (searcher.rs lines 255-271). -/
def parse_expression (fuel : Nat) (s : List Char) : Option (ℚ × List Char) :=
  match fuel with
  | 0 => none
  | f + 1 =>
    match parse_term f s with
    | none => none
    | some (left, rest) => exprLoop f left rest

/-- The `+`/`-` while-loop of `parse_expression`. -/
def exprLoop (fuel : Nat) (left : ℚ) (rest : List Char) : Option (ℚ × List Char) :=
  match fuel with
  | 0 => none
  | f + 1 =>
    match trimStartL rest with
    | c :: tl =>
      if c = '+' ∨ c = '-' then
        match parse_term f (trimStartL tl) with
        | none => none
        | some (right, newRest) =>
          exprLoop f (if c = '+' then left + right else left - right) newRest
      else some (left, rest)
    | [] => some (left, rest)

/-- Model of `parse_term` (searcher.rs lines 273-300). -/
def parse_term (fuel : Nat) (s : List Char) : Option (ℚ × List Char) :=
  match fuel with
  | 0 => none
  | f + 1 =>
    match parse_factor f s with
    | none => none
    | some (left, rest) => termLoop f left rest

/-- The `*`/`/`/`%` while-loop of `parse_term`, returning `none` on a zero
divisor (searcher.rs lines 282-293). -/
def termLoop (fuel : Nat) (left : ℚ) (rest : List Char) : Option (ℚ × List Char) :=
  match fuel with
  | 0 => none
  | f + 1 =>
    match trimStartL rest with
    | c :: tl =>
      if c = '*' ∨ c = '/' ∨ c = '%' then
        match parse_factor f (trimStartL tl) with
        | none => none
        | some (right, newRest) =>
          if c = '*' then termLoop f (left * right) newRest
          else if right = 0 then none
          else if c = '/' then termLoop f (left / right) newRest
          else termLoop f (fmodQ left right) newRest
      else some (left, rest)
    | [] => some (left, rest)

/-- Model of `parse_factor` (searcher.rs lines 302-341): parentheses, unary minus, or a
number literal. -/
def parse_factor (fuel : Nat) (s : List Char) : Option (ℚ × List Char) :=
  match fuel with
  | 0 => none
  | f + 1 =>
    match trimStartL s with
    | '(' :: tl =>
      match parse_expression f tl with
      | none => none
      | some (v, rest) =>
        match trimStartL rest with
        | ')' :: tl2 => some (v, tl2)
        | _ => none
    | '-' :: tl =>
      match parse_factor f tl with
      | none => none
      | some (v, rest) => some (-v, rest)
    | t =>
      match numVal (scanNum t false) with
      | none => none
      | some v => some (v, t.drop (scanNum t false).length)

end

/-- The operators whose presence `evaluate_math` requires
(searcher.rs line 226). -/
def isOpChar (c : Char) : Bool :=
  c = '+' ∨ c = '-' ∨ c = '*' ∨ c = '/' ∨ c = '%' ∨ c = '^'

/-- The character whitelist of `evaluate_math` (searcher.rs line 234). -/
def isSafeChar (c : Char) : Bool :=
  c.isDigit ∨ c = '+' ∨ c = '-' ∨ c = '*' ∨ c = '/' ∨ c = '.' ∨ c = '(' ∨ c = ')' ∨
    c = ' ' ∨ c = '%' ∨ c = '^'

/-- Zero-padded six-digit fraction for the fixed-point formatting. -/
def fracPadded (n : Nat) : String :=
  let s := toString n
  ⟨List.replicate (6 - s.length) '0'⟩ ++ s

/-- Rust's fixed six-decimal formatting followed by trimming trailing zeros
and a trailing dot (searcher.rs line 246). -/
def formatFixed6 (q : ℚ) : String :=
  let sign : String := if q < 0 then "-" else ""
  let scaled : Int := round (|q| * 1000000)
  let s := sign ++ toString (scaled / 1000000) ++ "." ++ fracPadded (scaled % 1000000).toNat
  ⟨((s.data.reverse.dropWhile fun c => c = '0').dropWhile fun c => c = '.').reverse⟩

/-- The result formatting of `evaluate_math` (searcher.rs lines 243-247):
integral values below ten to the fifteenth print as integers, everything else
through the fixed six-decimal path. -/
def formatResult (result : ℚ) : String :=
  if result.den = 1 ∧ |result| < 10 ^ 15 then toString result.num
  else formatFixed6 result

/-- Fuel amply covering the parser call depth on an input of this length. -/
def mathFuel (s : List Char) : Nat := 4 * s.length + 8

/-- Model of `evaluate_math` (searcher.rs lines 221-251). -/
def evaluate_math (query : String) : Option String :=
  let trimmed := trimL query.data
  if ¬ (trimmed.any Char.isDigit) ∨ ¬ (trimmed.any isOpChar) then none
  else if ¬ (trimmed.all isSafeChar) then none
  else
    match parse_expression (mathFuel trimmed) trimmed with
    | some (result, rest) =>
      if (trimL rest).isEmpty then some (formatResult result) else none
    | none => none

/-!
## Searcher (searcher.rs lines 1-217)

`SkimMatcherV2` is third-party; it enters the model as an opaque function
`FuzzyFn` giving score and matched indices of (text, pattern).  `usage_boost`
(searcher.rs lines 198-217) uses a natural logarithm and wall-clock time, so
it enters as an opaque function of `(click_count, last_accessed)`; no claim
proved here depends on either.
-/

/-- A scored search result (searcher.rs lines 8-22); `score` is the `f64`
composite score, modelled in `ℚ`. -/
structure SearchResult where
  id : Int
  filename : String
  filepath : String
  extension : String
  file_size : Int
  modified_at : Int
  file_type : String
  click_count : Int
  last_accessed : Int
  score : ℚ
  match_type : String
  matched_indices : List Nat
deriving Repr, DecidableEq

/-- Opaque fuzzy matcher: `fuzzy_indices(text, pattern)`. -/
abbrev FuzzyFn := String → String → Option (Int × List Nat)

/-- Opaque usage/recency boost of `(click_count, last_accessed)`. -/
abbrev UsageBoostFn := Int → Int → ℚ

/-- Model of `file_type_boost` (searcher.rs lines 185-195). -/
def file_type_boost (file_type : String) : ℚ :=
  if file_type = "app" then 50
  else if file_type = "shortcut" then 40
  else if file_type = "document" then 20
  else if file_type = "folder" then 15
  else if file_type = "code" then 10
  else if file_type = "image" then 5
  else 0

/-- Rust `str::find` with a literal pattern: position of the first occurrence. -/
def firstSubPos (s q : List Char) : Option Nat :=
  match s with
  | [] => if q.isPrefixOf ([] : List Char) then some 0 else none
  | c :: t => if q.isPrefixOf (c :: t) then some 0 else (firstSubPos t q).map (· + 1)

/-- Model of `score_entry` (searcher.rs lines 121-182): the first applicable match kind
gives the base score, match type and matched indices; type and usage boosts
are then added. -/
def score_entry (fm : FuzzyFn) (ub : UsageBoostFn) (entry : FileEntry)
    (query_lower : String) : ℚ × String × List Nat :=
  let filename_lower := lowerStr entry.filename
  let filepath_lower := lowerStr entry.filepath
  let base : ℚ × String × List Nat :=
    if filename_lower = query_lower then
      (1000, "exact", List.range entry.filename.length)
    else if (⟨filename_lower.data.takeWhile fun c => c ≠ '.'⟩ : String) = query_lower then
      (950, "exact", List.range query_lower.length)
    else if query_lower.data.isPrefixOf filename_lower.data then
      (800, "prefix", List.range query_lower.length)
    else
      match firstSubPos filename_lower.data query_lower.data with
      | some pos => (600, "substring", (List.range query_lower.length).map (· + pos))
      | none =>
        if substrB query_lower.data filepath_lower.data then
          (300, "path", [])
        else
          match fm filename_lower query_lower with
          | some fuzzy_result => ((max (fuzzy_result.1 : ℚ) 10), "fuzzy", fuzzy_result.2)
          | none =>
            match fm filepath_lower query_lower with
            | some fuzzy_result =>
              ((max ((fuzzy_result.1 : ℚ) * 0.5) 5), "path", fuzzy_result.2)
            | none => (0, "none", [])
  (base.1 + file_type_boost entry.file_type + ub entry.click_count entry.last_accessed,
   base.2.1, base.2.2)

/-- The `SearchResult` built from a Phase-1 row (searcher.rs lines 48-65). -/
def mkPhase1Result (fm : FuzzyFn) (ub : UsageBoostFn) (query_lower : String)
    (entry : FileEntry) : SearchResult :=
  let s := score_entry fm ub entry query_lower
  { id := entry.id, filename := entry.filename, filepath := entry.filepath,
    extension := entry.extension, file_size := entry.file_size,
    modified_at := entry.modified_at, file_type := entry.file_type,
    click_count := entry.click_count, last_accessed := entry.last_accessed,
    score := s.1, match_type := s.2.1, matched_indices := s.2.2 }

/-- The Phase-2 fuzzy fallback loop (searcher.rs lines 74-109): rows whose id
is already seen are skipped; a positive fuzzy score yields a result whose
`extension` is the empty string and whose `file_size` is zero, and marks the
id seen. -/
def fuzzyPass (fm : FuzzyFn) (ub : UsageBoostFn) (query_lower : String) :
    List (Int × String × String × String × Int × Int × Int) → List Int → List SearchResult
  | [], _ => []
  | (id, filename, filepath, file_type, click_count, last_accessed, modified_at) :: rows,
      seen =>
    if id ∈ seen then fuzzyPass fm ub query_lower rows seen
    else
      match fm (lowerStr filename) query_lower with
      | some fuzzy_result =>
        if 0 < fuzzy_result.1 then
          { id := id, filename := filename, filepath := filepath, extension := "",
            file_size := 0, modified_at := modified_at, file_type := file_type,
            click_count := click_count, last_accessed := last_accessed,
            score := (fuzzy_result.1 : ℚ) * 0.5 + file_type_boost file_type
              + ub click_count last_accessed,
            match_type := "fuzzy", matched_indices := fuzzy_result.2 }
            :: fuzzyPass fm ub query_lower rows (id :: seen)
        else fuzzyPass fm ub query_lower rows seen
      | none => fuzzyPass fm ub query_lower rows seen

/-- The descending-score comparator of the final sort (searcher.rs line 113). -/
def scoreLe (a b : SearchResult) : Bool := decide (b.score ≤ a.score)

/-- Model of `search` (searcher.rs lines 30-118): Phase 1 scores the SQL candidates,
Phase 2 (only when Phase 1 returned fewer than `max_results`) fuzzy-scans the
whole table skipping seen ids; results are sorted by descending score and
truncated to `max_results`. -/
def search (fm : FuzzyFn) (ub : UsageBoostFn) (t : List FileEntry) (query : String)
    (max_results : Nat) : List SearchResult :=
  if (trimL query.data).isEmpty then []
  else
    let query_lower := lowerStr query
    let sql_results := search_files t query_lower (max_results * 3)
    let scored1 := sql_results.map (mkPhase1Result fm ub query_lower)
    let seen := sql_results.map FileEntry.id
    let scored := if scored1.length < max_results then
        scored1 ++ fuzzyPass fm ub query_lower (get_all_filenames t) seen
      else scored1
    (scored.mergeSort scoreLe).take max_results

/-- A fuzzy matcher used by witnesses: constant score 7 with matched index 0. -/
def witnessFm : FuzzyFn := fun _ _ => some (7, [0])

/-- A usage boost used by witnesses: constantly zero. -/
def witnessUb : UsageBoostFn := fun _ _ => 0

/-- The concrete result the C10 witness is about. -/
def c10res : SearchResult :=
  { id := 1, filename := "abc", filepath := "p", extension := "", file_size := 0,
    modified_at := 3, file_type := "other", click_count := 4, last_accessed := 5,
    score := (7 : ℚ) * 0.5, match_type := "fuzzy", matched_indices := [0] }

/-- The concrete row of the C6 witness. -/
def c6row : FileEntry :=
  { id := 1, filename := "alpha.txt", filepath := "C:/a/alpha.txt", extension := "txt",
    file_size := 1, modified_at := 2, file_type := "document", click_count := 0,
    last_accessed := 0, icon_path := none }

/-- A fuzzy matcher that never matches, for counterexamples. -/
def fmNone : FuzzyFn := fun _ _ => none

/-- The phrase `filename without its extension` in the specification's sense: the name up
to the last dot (the name itself when it has no dot). -/
def specStripExtension (s : String) : String :=
  if '.' ∈ s.data then ⟨((s.data.reverse.dropWhile fun c => c ≠ '.').drop 1).reverse⟩
  else s

/-- The entry of the C2 counterexample: a multi-dot filename. -/
def c2entry : FileEntry :=
  { id := 1, filename := "foo.tar.gz", filepath := "C:/x/foo.tar.gz", extension := "gz",
    file_size := 0, modified_at := 0, file_type := "other", click_count := 0,
    last_accessed := 0, icon_path := none }

/-- The entry of the C2 witness. -/
def c2wrow : FileEntry :=
  { id := 2, filename := "Foo.txt", filepath := "C:/x/Foo.txt", extension := "txt",
    file_size := 0, modified_at := 0, file_type := "other", click_count := 0,
    last_accessed := 0, icon_path := none }

/-- The row of the C1 counterexample: a filename containing a backslash. -/
def c1row : FileEntry :=
  { id := 1, filename := "a\\b", filepath := "p", extension := "", file_size := 0,
    modified_at := 0, file_type := "other", click_count := 0, last_accessed := 0,
    icon_path := none }

/-- First row of the C1 tier counterexample: the query occurs only in the
filepath; the file type is `app` (priority 5). -/
def c1tierA : FileEntry :=
  { id := 1, filename := "x", filepath := "docs", extension := "", file_size := 0,
    modified_at := 0, file_type := "app", click_count := 0, last_accessed := 0,
    icon_path := none }

/-- Second row of the C1 tier counterexample: the query occurs in the filename
(neither an exact nor a prefix match); the file type is `other` (priority 1). -/
def c1tierB : FileEntry :=
  { id := 2, filename := "xdoc", filepath := "y", extension := "", file_size := 0,
    modified_at := 0, file_type := "other", click_count := 0, last_accessed := 0,
    icon_path := none }

/-- The row of the C1 witness. -/
def c1wrow : FileEntry :=
  { id := 1, filename := "Notes.txt", filepath := "C:/d/Notes.txt", extension := "txt",
    file_size := 1, modified_at := 2, file_type := "document", click_count := 0,
    last_accessed := 0, icon_path := none }

/-!
## Theorems
-/

/-- C5: the classifier evaluates its rules in exactly the specified order
(first match wins), and in particular an `"exe"`-extension path is classified
`"app"` even when `is_dir` is true (the directory check comes later). -/
theorem C5_classifier_rule_order :
    (∀ (ext fp : String) (d : Bool), classify_file ext fp d = classifySpecOrder ext fp d) ∧
    (∀ (fp : String) (d : Bool), classify_file "exe" fp d = "app") := by
  constructor
  · intro ext fp d
    rfl
  · intro fp d
    have h : lowerStr "exe" = "exe" := by decide
    simp [classify_file, h]

theorem upsert_file_preserves_nodup (t : List FileEntry)
    (fn fp ext : String) (sz mt : Int) (ft : String) (h : pathsNodup t) :
    pathsNodup (upsert_file t fn fp ext sz mt ft) := by
  unfold upsert_file
  split
  · next hany =>
    have hmap : ∀ r ∈ t,
        (if r.filepath == fp then updateRow fn sz mt ft r else r).filepath = r.filepath := by
      intro r _
      split <;> rfl
    unfold pathsNodup
    rw [List.map_map]
    have : t.map (FileEntry.filepath ∘ fun r =>
        if r.filepath == fp then updateRow fn sz mt ft r else r) = t.map FileEntry.filepath :=
      List.map_congr_left fun r hr => hmap r hr
    rw [this]
    exact h
  · next hany =>
    have hfp : fp ∉ t.map FileEntry.filepath := by
      intro hmem
      apply hany
      rw [List.any_eq_true]
      obtain ⟨r, hr, hrfp⟩ := List.mem_map.mp hmem
      exact ⟨r, hr, by simp [hrfp]⟩
    unfold pathsNodup
    rw [List.map_append]
    refine List.Nodup.append h (by simp) ?_
    intro a ha hmem
    simp at hmem
    subst hmem
    exact hfp ha

theorem batch_preserves_nodup (es : List EntryData) :
    ∀ t : List FileEntry, pathsNodup t → pathsNodup (upsert_files_batch t es) := by
  induction es with
  | nil => intro t h; exact h
  | cons e es ih =>
    intro t h
    exact ih _ (upsert_file_preserves_nodup t e.1 e.2.1 e.2.2.1 e.2.2.2.1 e.2.2.2.2.1
      e.2.2.2.2.2 h)

theorem record_click_preserves_nodup (t : List FileEntry) (fp : String) (now : Int)
    (h : pathsNodup t) : pathsNodup (record_click t fp now) := by
  unfold pathsNodup record_click
  rw [List.map_map]
  have : t.map (FileEntry.filepath ∘ fun r =>
      if r.filepath == fp then { r with click_count := r.click_count + 1,
                                        last_accessed := now } else r)
      = t.map FileEntry.filepath := by
    refine List.map_congr_left fun r _ => ?_
    simp only [Function.comp]
    split <;> rfl
  rw [this]
  exact h

theorem remove_missing_preserves_nodup (t : List FileEntry) (ex : String → Bool)
    (h : pathsNodup t) : pathsNodup (remove_missing_files t ex) := by
  unfold pathsNodup remove_missing_files
  exact ((List.filter_sublist t).map FileEntry.filepath).nodup h

theorem applyOp_preserves_nodup (t : List FileEntry) (op : DbOp) (h : pathsNodup t) :
    pathsNodup (applyOp t op) := by
  cases op with
  | upsert fn fp ext sz mt ft => exact upsert_file_preserves_nodup t fn fp ext sz mt ft h
  | upsertBatch es => exact batch_preserves_nodup es t h
  | click fp now => exact record_click_preserves_nodup t fp now h
  | reconcile ex => exact remove_missing_preserves_nodup t ex h

/-- C4: starting from an empty store, after any sequence of upsert,
batched-upsert, record-click and reconcile-missing operations, no two rows of
the `files` table share a `filepath`. -/
theorem C4_filepath_unique (ops : List DbOp) : pathsNodup (applyOps [] ops) := by
  have step : ∀ (ops : List DbOp) (t : List FileEntry),
      pathsNodup t → pathsNodup (applyOps t ops) := by
    intro ops
    induction ops with
    | nil => intro t h; exact h
    | cons op ops ih => intro t h; exact ih _ (applyOp_preserves_nodup t op h)
  exact step ops [] (by simp [pathsNodup])

theorem filter_path_eq_singleton (t : List FileEntry) (r : FileEntry)
    (h : pathsNodup t) (hr : r ∈ t) :
    t.filter (fun x => x.filepath == r.filepath) = [r] := by
  induction t with
  | nil => cases hr
  | cons a t ih =>
    have hnd : a.filepath ∉ t.map FileEntry.filepath ∧ pathsNodup t := by
      unfold pathsNodup at h
      simpa using h
    rcases List.mem_cons.mp hr with hra | hrt
    · subst hra
      have hnil : t.filter (fun x => x.filepath == r.filepath) = [] := by
        rw [List.filter_eq_nil_iff]
        intro x hx hbeq
        apply hnd.1
        exact List.mem_map.mpr ⟨x, hx, beq_iff_eq.mp hbeq⟩
      simp [List.filter_cons, hnil]
    · have hne : (a.filepath == r.filepath) = false := by
        rw [beq_eq_false_iff_ne]
        intro hEq
        exact hnd.1 (hEq ▸ List.mem_map.mpr ⟨r, hrt, rfl⟩)
      simp [List.filter_cons, hne, ih hnd.2 hrt]

theorem filter_map_comm (f : FileEntry → FileEntry) (p : FileEntry → Bool)
    (hf : ∀ x, p (f x) = p x) (t : List FileEntry) :
    (t.map f).filter p = (t.filter p).map f := by
  induction t with
  | nil => rfl
  | cons a t ih =>
    by_cases hp : p a
    · simp [List.filter_cons, hf a, hp, ih]
    · simp [List.filter_cons, hf a, hp, ih]

theorem upsert_file_rows_at (t : List FileEntry) (r : FileEntry)
    (h : pathsNodup t) (hr : r ∈ t) (fn ext : String) (sz mt : Int) (ft : String) :
    (upsert_file t fn r.filepath ext sz mt ft).filter (fun x => x.filepath == r.filepath)
      = [updateRow fn sz mt ft r] := by
  have hany : (t.any fun x => x.filepath == r.filepath) = true :=
    List.any_eq_true.mpr ⟨r, hr, by simp⟩
  have hf : ∀ x : FileEntry,
      ((if x.filepath == r.filepath then updateRow fn sz mt ft x else x).filepath
        == r.filepath) = (x.filepath == r.filepath) := by
    intro x
    split <;> simp_all [updateRow]
  unfold upsert_file
  rw [if_pos hany]
  rw [filter_map_comm _ _ hf]
  rw [filter_path_eq_singleton t r h hr]
  simp

theorem upsert_file_keeps_usage (t : List FileEntry) (r : FileEntry)
    (hr : r ∈ t) (fn fp ext : String) (sz mt : Int) (ft : String) :
    ∃ r', r' ∈ upsert_file t fn fp ext sz mt ft ∧ r'.filepath = r.filepath ∧
      r'.click_count = r.click_count ∧ r'.last_accessed = r.last_accessed := by
  unfold upsert_file
  split
  · refine ⟨if r.filepath == fp then updateRow fn sz mt ft r else r,
      List.mem_map.mpr ⟨r, hr, rfl⟩, ?_⟩
    split <;> simp [updateRow]
  · exact ⟨r, List.mem_append_left _ hr, rfl, rfl, rfl⟩

theorem batch_keeps_usage (es : List EntryData) :
    ∀ (t : List FileEntry) (r : FileEntry), r ∈ t →
      ∃ r', r' ∈ upsert_files_batch t es ∧ r'.filepath = r.filepath ∧
        r'.click_count = r.click_count ∧ r'.last_accessed = r.last_accessed := by
  induction es with
  | nil => intro t r hr; exact ⟨r, hr, rfl, rfl, rfl⟩
  | cons e es ih =>
    intro t r hr
    obtain ⟨r1, hr1, hfp1, hc1, hl1⟩ :=
      upsert_file_keeps_usage t r hr e.1 e.2.1 e.2.2.1 e.2.2.2.1 e.2.2.2.2.1 e.2.2.2.2.2
    obtain ⟨r2, hr2, hfp2, hc2, hl2⟩ := ih (upsertEntry t e) r1 hr1
    exact ⟨r2, hr2, hfp2.trans hfp1, hc2.trans hc1, hl2.trans hl1⟩

/-- C3: after an upsert (single, or as the final element of a batch) whose
`filepath` equals that of an existing row `r`, the table holds exactly one row
at that filepath; its `filename`/`file_size`/`modified_at`/`file_type` are the
newly supplied values (that is what `updateRow fn sz mt ft` pins down) while
`click_count` and `last_accessed` keep their values from before the upsert. -/
theorem C3_upsert_frame (t : List FileEntry) (r : FileEntry)
    (h : pathsNodup t) (hr : r ∈ t)
    (fn ext ft : String) (sz mt : Int) (es : List EntryData) :
    (∀ r0 : FileEntry, (updateRow fn sz mt ft r0).filename = fn ∧
      (updateRow fn sz mt ft r0).file_size = sz ∧
      (updateRow fn sz mt ft r0).modified_at = mt ∧
      (updateRow fn sz mt ft r0).file_type = ft ∧
      (updateRow fn sz mt ft r0).click_count = r0.click_count ∧
      (updateRow fn sz mt ft r0).last_accessed = r0.last_accessed) ∧
    (upsert_file t fn r.filepath ext sz mt ft).filter (fun x => x.filepath == r.filepath)
      = [updateRow fn sz mt ft r] ∧
    (∃ r', (upsert_files_batch t (es ++ [(fn, r.filepath, ext, sz, mt, ft)])).filter
        (fun x => x.filepath == r.filepath) = [updateRow fn sz mt ft r'] ∧
      r'.click_count = r.click_count ∧ r'.last_accessed = r.last_accessed) := by
  refine ⟨fun r0 => ⟨rfl, rfl, rfl, rfl, rfl, rfl⟩,
    upsert_file_rows_at t r h hr fn ext sz mt ft, ?_⟩
  obtain ⟨r', hr', hfp', hc', hl'⟩ := batch_keeps_usage es t r hr
  have hnd' : pathsNodup (upsert_files_batch t es) := batch_preserves_nodup es t h
  refine ⟨r', ?_, hc', hl'⟩
  unfold upsert_files_batch
  rw [List.foldl_append]
  have : (es.foldl upsertEntry t) = upsert_files_batch t es := rfl
  rw [this]
  have hstep : List.foldl upsertEntry (upsert_files_batch t es)
      [(fn, r.filepath, ext, sz, mt, ft)]
      = upsert_file (upsert_files_batch t es) fn r.filepath ext sz mt ft := rfl
  rw [hstep, ← hfp']
  exact upsert_file_rows_at (upsert_files_batch t es) r' hnd' hr' fn ext sz mt ft

/-- Witness for C3 at a concrete table, single and batched upsert. -/
theorem C3_upsert_frame_witness :
    (upsert_file [c3row] "b.txt" c3row.filepath "txt" 99 88 "document").filter
        (fun x => x.filepath == c3row.filepath) = [updateRow "b.txt" 99 88 "document" c3row] ∧
    (∃ r', (upsert_files_batch [c3row] ([] ++ [("b.txt", c3row.filepath, "txt", 99, 88,
        "document")])).filter (fun x => x.filepath == c3row.filepath)
        = [updateRow "b.txt" 99 88 "document" r'] ∧
      r'.click_count = c3row.click_count ∧ r'.last_accessed = c3row.last_accessed) := by
  have h := C3_upsert_frame [c3row] c3row (by simp [pathsNodup]) (by simp)
    "b.txt" "txt" "document" 99 88 []
  exact ⟨h.2.1, h.2.2⟩

theorem hat_dropWhile (s : List Char) :
    (s.dropWhile Char.isWhitespace).count '^' = s.count '^' := by
  induction s with
  | nil => rfl
  | cons c cs ih =>
    rw [List.dropWhile_cons]
    by_cases h : c.isWhitespace
    · have hc : (c == '^') = false := by
        rw [beq_eq_false_iff_ne]
        rintro rfl
        exact absurd h (by decide)
      simp [h, ih, List.count_cons, hc]
    · simp [h]

theorem hat_trimStart (s : List Char) : (trimStartL s).count '^' = s.count '^' :=
  hat_dropWhile s

theorem hat_trim (s : List Char) : (trimL s).count '^' = s.count '^' := by
  unfold trimL
  rw [List.count_reverse, hat_dropWhile, List.count_reverse, hat_trimStart]

theorem hat_cons_of_ne {c : Char} (h : c ≠ '^') (l : List Char) :
    (c :: l).count '^' = l.count '^' := by
  have : (c == '^') = false := by rwa [beq_eq_false_iff_ne]
  simp [List.count_cons, this]

theorem hat_scanNum (t : List Char) : ∀ b : Bool,
    (t.drop (scanNum t b).length).count '^' = t.count '^' := by
  induction t with
  | nil => intro b; rfl
  | cons c cs ih =>
    intro b
    rw [scanNum]
    by_cases h1 : c.isDigit
    · have hc : c ≠ '^' := by rintro rfl; exact absurd h1 (by decide)
      rw [if_pos h1, List.length_cons, List.drop_succ_cons, ih b, hat_cons_of_ne hc]
    · by_cases h2 : c = '.' ∧ b = false
      · have hc : c ≠ '^' := by rw [h2.1]; decide
        rw [if_neg h1, if_pos h2, List.length_cons, List.drop_succ_cons, ih true,
          hat_cons_of_ne hc]
      · rw [if_neg h1, if_neg h2]
        simp

theorem parsersHat (fuel : Nat) :
    (∀ s v r, parse_expression fuel s = some (v, r) → r.count '^' = s.count '^') ∧
    (∀ l rest v r, exprLoop fuel l rest = some (v, r) → r.count '^' = rest.count '^') ∧
    (∀ s v r, parse_term fuel s = some (v, r) → r.count '^' = s.count '^') ∧
    (∀ l rest v r, termLoop fuel l rest = some (v, r) → r.count '^' = rest.count '^') ∧
    (∀ s v r, parse_factor fuel s = some (v, r) → r.count '^' = s.count '^') := by
  induction fuel with
  | zero =>
    refine ⟨?_, ?_, ?_, ?_, ?_⟩
    · intro s v r h; simp [parse_expression] at h
    · intro l rest v r h; simp [exprLoop] at h
    · intro s v r h; simp [parse_term] at h
    · intro l rest v r h; simp [termLoop] at h
    · intro s v r h; simp [parse_factor] at h
  | succ f ih =>
    obtain ⟨ihE, ihEL, ihT, ihTL, ihF⟩ := ih
    refine ⟨?_, ?_, ?_, ?_, ?_⟩
    · -- parse_expression
      intro s v r h
      rw [parse_expression] at h
      cases ht : parse_term f s with
      | none => rw [ht] at h; exact absurd h (by simp)
      | some lr =>
        obtain ⟨l, rest⟩ := lr
        rw [ht] at h
        exact (ihEL l rest v r h).trans (ihT s l rest ht)
    · -- exprLoop
      intro l rest v r h
      rw [exprLoop] at h
      cases hrt : trimStartL rest with
      | nil =>
        rw [hrt] at h
        simp only [Option.some.injEq, Prod.mk.injEq] at h
        rw [← h.2]
      | cons c tl =>
        rw [hrt] at h
        dsimp only at h
        by_cases hc : c = '+' ∨ c = '-'
        · rw [if_pos hc] at h
          cases ht : parse_term f (trimStartL tl) with
          | none => rw [ht] at h; exact absurd h (by simp)
          | some rr =>
            obtain ⟨right, newRest⟩ := rr
            rw [ht] at h
            have h1 := ihEL _ newRest v r h
            have h2 := ihT (trimStartL tl) right newRest ht
            have hc8 : c ≠ '^' := by rcases hc with rfl | rfl <;> decide
            rw [h1, h2, hat_trimStart, ← hat_cons_of_ne hc8 tl, ← hrt, hat_trimStart]
        · rw [if_neg hc] at h
          simp only [Option.some.injEq, Prod.mk.injEq] at h
          rw [← h.2]
    · -- parse_term
      intro s v r h
      rw [parse_term] at h
      cases hpf : parse_factor f s with
      | none => rw [hpf] at h; exact absurd h (by simp)
      | some lr =>
        obtain ⟨l, rest⟩ := lr
        rw [hpf] at h
        exact (ihTL l rest v r h).trans (ihF s l rest hpf)
    · -- termLoop
      intro l rest v r h
      rw [termLoop] at h
      cases hrt : trimStartL rest with
      | nil =>
        rw [hrt] at h
        simp only [Option.some.injEq, Prod.mk.injEq] at h
        rw [← h.2]
      | cons c tl =>
        rw [hrt] at h
        dsimp only at h
        by_cases hc : c = '*' ∨ c = '/' ∨ c = '%'
        · rw [if_pos hc] at h
          cases hpf : parse_factor f (trimStartL tl) with
          | none => rw [hpf] at h; exact absurd h (by simp)
          | some rr =>
            obtain ⟨right, newRest⟩ := rr
            rw [hpf] at h
            dsimp only at h
            have h2 := ihF (trimStartL tl) right newRest hpf
            have hc8 : c ≠ '^' := by rcases hc with rfl | rfl | rfl <;> decide
            have key : r.count '^' = newRest.count '^' := by
              by_cases hstar : c = '*'
              · rw [if_pos hstar] at h
                exact ihTL _ newRest v r h
              · rw [if_neg hstar] at h
                by_cases hz : right = 0
                · rw [if_pos hz] at h
                  exact absurd h (by simp)
                · rw [if_neg hz] at h
                  by_cases hdiv : c = '/'
                  · rw [if_pos hdiv] at h
                    exact ihTL _ newRest v r h
                  · rw [if_neg hdiv] at h
                    exact ihTL _ newRest v r h
            rw [key, h2, hat_trimStart, ← hat_cons_of_ne hc8 tl, ← hrt, hat_trimStart]
        · rw [if_neg hc] at h
          simp only [Option.some.injEq, Prod.mk.injEq] at h
          rw [← h.2]
    · -- parse_factor
      intro s v r h
      rw [parse_factor] at h
      split at h
      · next tl heq =>
        cases hpe : parse_expression f tl with
        | none => rw [hpe] at h; exact absurd h (by simp)
        | some vr =>
          obtain ⟨v0, rest0⟩ := vr
          rw [hpe] at h
          dsimp only at h
          split at h
          · next tl2 heq2 =>
            simp only [Option.some.injEq, Prod.mk.injEq] at h
            rw [← h.2]
            have c1 := ihE tl v0 rest0 hpe
            calc tl2.count '^' = (')' :: tl2).count '^' := (hat_cons_of_ne (by decide) tl2).symm
              _ = rest0.count '^' := by rw [← heq2, hat_trimStart]
              _ = tl.count '^' := c1
              _ = ('(' :: tl).count '^' := (hat_cons_of_ne (by decide) tl).symm
              _ = s.count '^' := by rw [← heq, hat_trimStart]
          · exact absurd h (by simp)
      · next tl heq =>
        cases hpf : parse_factor f tl with
        | none => rw [hpf] at h; exact absurd h (by simp)
        | some vr =>
          obtain ⟨v0, rest0⟩ := vr
          rw [hpf] at h
          simp only [Option.some.injEq, Prod.mk.injEq] at h
          rw [← h.2]
          calc rest0.count '^' = tl.count '^' := ihF tl v0 rest0 hpf
            _ = ('-' :: tl).count '^' := (hat_cons_of_ne (by decide) tl).symm
            _ = s.count '^' := by rw [← heq, hat_trimStart]
      · cases hnv : numVal (scanNum (trimStartL s) false) with
        | none => rw [hnv] at h; exact absurd h (by simp)
        | some v0 =>
          rw [hnv] at h
          simp only [Option.some.injEq, Prod.mk.injEq] at h
          rw [← h.2, hat_scanNum, hat_trimStart]

theorem evaluate_math_hat (q : String) (h : '^' ∈ q.data) : evaluate_math q = none := by
  have hq : 0 < (trimL q.data).count '^' := by
    rw [hat_trim]
    exact List.count_pos_iff.mpr h
  simp only [evaluate_math]
  split
  · rfl
  · split
    · rfl
    · cases hp : parse_expression (mathFuel (trimL q.data)) (trimL q.data) with
      | none => rfl
      | some vr =>
        obtain ⟨result, rest⟩ := vr
        have hc : rest.count '^' = (trimL q.data).count '^' :=
          (parsersHat (mathFuel (trimL q.data))).1 _ _ _ hp
        have h2 : 0 < (trimL rest).count '^' := by
          rw [hat_trim, hc]
          exact hq
        have h3 : (trimL rest).isEmpty = false := by
          cases he : trimL rest with
          | nil => rw [he] at h2; simp at h2
          | cons a l => rfl
        simp [h3]

/-- C8 counterexample: the claim's own example input `2^3` produces no result,
although it is well-formed, built from digits and the listed operators, and
uses the `^` operator. -/
theorem C8_caret_counterexample : evaluate_math "2^3" = none := by
  with_unfolding_all decide

/-- C8 (amended): `evaluate_math` accepts `^` in its character whitelist and
its operator-presence check, but no parser rule consumes `^`, so every input
containing `^` returns no result; the remaining operators `+ - * / %` with
parentheses and negative numbers do produce formatted numeric results. -/
theorem C8_math_operators_amended :
    (∀ q : String, '^' ∈ q.data → evaluate_math q = none) ∧
    evaluate_math "-2*(3+4)" = some "-14" ∧
    evaluate_math "100 / 4" = some "25" ∧
    evaluate_math "7 % 4" = some "3" := by
  refine ⟨evaluate_math_hat, ?_, ?_, ?_⟩ <;> with_unfolding_all decide

/-- Witness for C8: the universal part applied at the concrete input `2^2`. -/
theorem C8_math_operators_amended_witness : evaluate_math "2^2" = none :=
  C8_math_operators_amended.1 "2^2" (by decide)

/-- C9: the evaluator round trip: `(2 + 3) * 4` evaluates to `20`, division by
zero and non-arithmetic input return no result (never a failure), and in
general whenever the divisor after `/` or `%` parses to zero the whole parse
returns `none`. -/
theorem C9_math_round_trip :
    evaluate_math "(2 + 3) * 4" = some "20" ∧
    evaluate_math "5 / 0" = none ∧
    evaluate_math "hello" = none ∧
    (∀ (f : Nat) (l : ℚ) (c : Char) (rest tl rest2 : List Char),
      (c = '/' ∨ c = '%') → trimStartL rest = c :: tl →
      parse_factor f (trimStartL tl) = some (0, rest2) →
      termLoop (f + 1) l rest = none) := by
  refine ⟨by with_unfolding_all decide, by with_unfolding_all decide,
    by with_unfolding_all decide, ?_⟩
  intro f l c rest tl rest2 hc hrt hpf
  rw [termLoop, hrt]
  dsimp only
  have hops : c = '*' ∨ c = '/' ∨ c = '%' := Or.inr hc
  rw [if_pos hops, hpf]
  dsimp only
  have hstar : c ≠ '*' := by rcases hc with rfl | rfl <;> decide
  rw [if_neg hstar, if_pos rfl]

/-- Witness for C9: the zero-divisor clause applied to the tail input
slash-space-zero with the divisor parsing to zero. -/
theorem C9_math_round_trip_witness : termLoop 6 5 ['/', ' ', '0'] = none :=
  C9_math_round_trip.2.2.2 5 5 '/' ['/', ' ', '0'] [' ', '0'] []
    (Or.inl rfl) (by decide) (by with_unfolding_all decide)

/-- C10: every result produced by the Phase-2 fuzzy fallback has an empty
`extension` and a zero `file_size`, and its remaining fields are copied from
the projected row (id, filename, filepath, fileType, clickCount, lastAccessed,
modifiedAt). -/
theorem C10_fuzzy_fallback_fields (fm : FuzzyFn) (ub : UsageBoostFn) (q : String) :
    ∀ (rows : List (Int × String × String × String × Int × Int × Int))
      (seen : List Int) (r : SearchResult), r ∈ fuzzyPass fm ub q rows seen →
      r.extension = "" ∧ r.file_size = 0 ∧
      ∃ row ∈ rows, r.id = row.1 ∧ r.filename = row.2.1 ∧ r.filepath = row.2.2.1 ∧
        r.file_type = row.2.2.2.1 ∧ r.click_count = row.2.2.2.2.1 ∧
        r.last_accessed = row.2.2.2.2.2.1 ∧ r.modified_at = row.2.2.2.2.2.2 := by
  intro rows
  induction rows with
  | nil => intro seen r hr; simp [fuzzyPass] at hr
  | cons row rows ih =>
    intro seen r hr
    obtain ⟨id, fn, fp, ft, cc, la, ma⟩ := row
    rw [fuzzyPass] at hr
    by_cases hseen : id ∈ seen
    · rw [if_pos hseen] at hr
      obtain ⟨h1, h2, row', hrow', hfields⟩ := ih seen r hr
      exact ⟨h1, h2, row', List.mem_cons_of_mem _ hrow', hfields⟩
    · rw [if_neg hseen] at hr
      cases hfm : fm (lowerStr fn) q with
      | none =>
        rw [hfm] at hr
        obtain ⟨h1, h2, row', hrow', hfields⟩ := ih seen r hr
        exact ⟨h1, h2, row', List.mem_cons_of_mem _ hrow', hfields⟩
      | some fuzzy_result =>
        rw [hfm] at hr
        dsimp only at hr
        by_cases hpos : 0 < fuzzy_result.1
        · rw [if_pos hpos] at hr
          rcases List.mem_cons.mp hr with hhead | htail
          · subst hhead
            exact ⟨rfl, rfl, (id, fn, fp, ft, cc, la, ma), List.mem_cons_self _ _,
              rfl, rfl, rfl, rfl, rfl, rfl, rfl⟩
          · obtain ⟨h1, h2, row', hrow', hfields⟩ := ih (id :: seen) r htail
            exact ⟨h1, h2, row', List.mem_cons_of_mem _ hrow', hfields⟩
        · rw [if_neg hpos] at hr
          obtain ⟨h1, h2, row', hrow', hfields⟩ := ih seen r hr
          exact ⟨h1, h2, row', List.mem_cons_of_mem _ hrow', hfields⟩

/-- Witness for C10 at a concrete one-row projection. -/
theorem C10_fuzzy_fallback_fields_witness :
    c10res.extension = "" ∧ c10res.file_size = 0 ∧
    ∃ row ∈ [((1 : Int), "abc", "p", "other", (4 : Int), (5 : Int), (3 : Int))],
      c10res.id = row.1 ∧ c10res.filename = row.2.1 ∧ c10res.filepath = row.2.2.1 ∧
      c10res.file_type = row.2.2.2.1 ∧ c10res.click_count = row.2.2.2.2.1 ∧
      c10res.last_accessed = row.2.2.2.2.2.1 ∧ c10res.modified_at = row.2.2.2.2.2.2 :=
  C10_fuzzy_fallback_fields witnessFm witnessUb "q"
    [((1 : Int), "abc", "p", "other", (4 : Int), (5 : Int), (3 : Int))] [] c10res
    (by with_unfolding_all decide)

theorem scoreLe_trans (a b c : SearchResult) (h1 : scoreLe a b) (h2 : scoreLe b c) :
    scoreLe a c := by
  simp only [scoreLe, decide_eq_true_eq] at *
  exact le_trans h2 h1

theorem scoreLe_total (a b : SearchResult) : scoreLe a b || scoreLe b a := by
  simp only [scoreLe, Bool.or_eq_true, decide_eq_true_eq]
  exact le_total b.score a.score

/-- C7: the searcher returns at most `k` results, and the returned list is
sorted in non-increasing order of composite score (the truncation to `k` is
applied to the sorted list). -/
theorem C7_cap_and_sorted (fm : FuzzyFn) (ub : UsageBoostFn) (t : List FileEntry)
    (q : String) (k : Nat) :
    (search fm ub t q k).length ≤ k ∧
    List.Pairwise (fun a b : SearchResult => b.score ≤ a.score) (search fm ub t q k) := by
  unfold search
  split
  · simp
  · refine ⟨?_, ?_⟩
    · simp [List.length_take]
    · have hs := List.sorted_mergeSort
        (fun a b c => scoreLe_trans a b c) (fun a b => scoreLe_total a b)
        (if (List.map (mkPhase1Result fm ub (lowerStr q))
              (search_files t (lowerStr q) (k * 3))).length < k then
            List.map (mkPhase1Result fm ub (lowerStr q))
              (search_files t (lowerStr q) (k * 3)) ++
              fuzzyPass fm ub (lowerStr q) (get_all_filenames t)
                (List.map FileEntry.id (search_files t (lowerStr q) (k * 3)))
          else
            List.map (mkPhase1Result fm ub (lowerStr q))
              (search_files t (lowerStr q) (k * 3)))
      have hp := List.Pairwise.sublist (List.take_sublist k _) hs
      exact hp.imp fun h => of_decide_eq_true h

theorem fuzzyPass_avoids_seen (fm : FuzzyFn) (ub : UsageBoostFn) (q : String) :
    ∀ rows seen (r : SearchResult), r ∈ fuzzyPass fm ub q rows seen → r.id ∉ seen := by
  intro rows
  induction rows with
  | nil => intro seen r hr; simp [fuzzyPass] at hr
  | cons row rows ih =>
    intro seen r hr
    obtain ⟨id, fn, fp, ft, cc, la, ma⟩ := row
    rw [fuzzyPass] at hr
    by_cases hseen : id ∈ seen
    · rw [if_pos hseen] at hr
      exact ih seen r hr
    · rw [if_neg hseen] at hr
      cases hfm : fm (lowerStr fn) q with
      | none => rw [hfm] at hr; exact ih seen r hr
      | some fuzzy_result =>
        rw [hfm] at hr
        dsimp only at hr
        by_cases hpos : 0 < fuzzy_result.1
        · rw [if_pos hpos] at hr
          rcases List.mem_cons.mp hr with hhead | htail
          · subst hhead
            exact hseen
          · have := ih (id :: seen) r htail
            exact fun hmem => this (List.mem_cons_of_mem _ hmem)
        · rw [if_neg hpos] at hr
          exact ih seen r hr

theorem fuzzyPass_ids_nodup (fm : FuzzyFn) (ub : UsageBoostFn) (q : String) :
    ∀ rows seen, ((fuzzyPass fm ub q rows seen).map SearchResult.id).Nodup := by
  intro rows
  induction rows with
  | nil => intro seen; simp [fuzzyPass]
  | cons row rows ih =>
    intro seen
    obtain ⟨id, fn, fp, ft, cc, la, ma⟩ := row
    rw [fuzzyPass]
    by_cases hseen : id ∈ seen
    · rw [if_pos hseen]; exact ih seen
    · rw [if_neg hseen]
      cases hfm : fm (lowerStr fn) q with
      | none => exact ih seen
      | some fuzzy_result =>
        dsimp only
        by_cases hpos : 0 < fuzzy_result.1
        · rw [if_pos hpos]
          rw [List.map_cons, List.nodup_cons]
          refine ⟨?_, ih (id :: seen)⟩
          intro hmem
          obtain ⟨r, hr, hrid⟩ := List.mem_map.mp hmem
          exact fuzzyPass_avoids_seen fm ub q rows (id :: seen) r hr
            (hrid ▸ List.mem_cons_self id seen)
        · rw [if_neg hpos]; exact ih seen

theorem nodup_map_take_mergeSort {α β : Type} (f : α → β) (le : α → α → Bool) (n : Nat)
    (l : List α) (h : (l.map f).Nodup) : (((l.mergeSort le).take n).map f).Nodup := by
  have hperm : ((l.mergeSort le).map f).Perm (l.map f) := (List.mergeSort_perm l le).map f
  have hnodup : ((l.mergeSort le).map f).Nodup := hperm.symm.nodup h
  exact List.Sublist.nodup (List.Sublist.map f (List.take_sublist n _)) hnodup

theorem search_files_ids_nodup (t : List FileEntry) (q : String) (limit : Nat)
    (h : (t.map FileEntry.id).Nodup) :
    ((search_files t q limit).map FileEntry.id).Nodup := by
  unfold search_files
  exact nodup_map_take_mergeSort _ _ _ _
    (List.Sublist.nodup (List.Sublist.map _ (List.filter_sublist t)) h)

/-- C6: when the table's ids are unique (the primary-key invariant), every id
appears at most once in the result list, and a Phase-2 fuzzy result never
carries an id that was already seen (in particular one scored in Phase 1). -/
theorem C6_dedup_across_phases (fm : FuzzyFn) (ub : UsageBoostFn) (t : List FileEntry)
    (q : String) (k : Nat) (hids : (t.map FileEntry.id).Nodup) :
    ((search fm ub t q k).map SearchResult.id).Nodup ∧
    (∀ rows seen (r : SearchResult), r ∈ fuzzyPass fm ub (lowerStr q) rows seen →
      r.id ∉ seen) := by
  refine ⟨?_, fuzzyPass_avoids_seen fm ub (lowerStr q)⟩
  unfold search
  split
  · simp
  · apply nodup_map_take_mergeSort
    have hsql : ((search_files t (lowerStr q) (k * 3)).map FileEntry.id).Nodup :=
      search_files_ids_nodup t (lowerStr q) (k * 3) hids
    have hmm : (List.map (mkPhase1Result fm ub (lowerStr q))
        (search_files t (lowerStr q) (k * 3))).map SearchResult.id
        = (search_files t (lowerStr q) (k * 3)).map FileEntry.id := by
      rw [List.map_map]
      exact List.map_congr_left fun e _ => rfl
    have hscored1 : ((List.map (mkPhase1Result fm ub (lowerStr q))
        (search_files t (lowerStr q) (k * 3))).map SearchResult.id).Nodup := by
      rw [hmm]; exact hsql
    split
    · rw [List.map_append]
      refine List.Nodup.append hscored1 (fuzzyPass_ids_nodup fm ub (lowerStr q) _ _) ?_
      rw [List.disjoint_left]
      intro a ha hb
      rw [hmm] at ha
      obtain ⟨r, hr, hrid⟩ := List.mem_map.mp hb
      exact fuzzyPass_avoids_seen fm ub (lowerStr q) _ _ r hr (hrid ▸ ha)
    · exact hscored1

/-- Witness for C6 on a concrete one-row table. -/
theorem C6_dedup_across_phases_witness :
    ((search witnessFm witnessUb [c6row] "alpha" 3).map SearchResult.id).Nodup :=
  (C6_dedup_across_phases witnessFm witnessUb [c6row] "alpha" 3 (by simp)).1

/-- C2 counterexample: for the query `foo.tar`, the entry `foo.tar.gz` has a
lower-cased filename different from the query whose filename without its
extension equals the query, yet its base score is 800 (the prefix kind), not
950 — `score_entry` compares the part before the FIRST dot, not the filename
without its extension. -/
theorem C2_base950_counterexample :
    lowerStr c2entry.filename ≠ "foo.tar" ∧
    specStripExtension (lowerStr c2entry.filename) = "foo.tar" ∧
    (score_entry fmNone witnessUb c2entry "foo.tar").1 = 800 ∧
    ¬ (score_entry fmNone witnessUb c2entry "foo.tar").1 = 950 := by
  set_option maxRecDepth 8000 in
  refine ⟨by decide, by decide, ?_, ?_⟩ <;> with_unfolding_all decide

/-- C2 (amended): when the lower-cased filename differs from the query but its
part before the first dot equals the query, the base score is 950, the match
type is `exact` and the matched indices are the first `len(query)` positions;
this kind is tried after the exact-filename kind (base 1000), which wins
whenever the whole lower-cased filename equals the query. -/
theorem C2_base950_amended (fm : FuzzyFn) (ub : UsageBoostFn) (e : FileEntry) (q : String)
    (hne : lowerStr e.filename ≠ q)
    (heq : (⟨(lowerStr e.filename).data.takeWhile fun c => c ≠ '.'⟩ : String) = q) :
    score_entry fm ub e q
      = (950 + file_type_boost e.file_type + ub e.click_count e.last_accessed,
         "exact", List.range q.length) ∧
    (∀ e' : FileEntry, lowerStr e'.filename = q →
      score_entry fm ub e' q
        = (1000 + file_type_boost e'.file_type + ub e'.click_count e'.last_accessed,
           "exact", List.range e'.filename.length)) := by
  constructor
  · simp only [score_entry]
    rw [if_neg hne, if_pos heq]
  · intro e' he'
    simp only [score_entry]
    rw [if_pos he']

/-- Witness for C2 at the concrete entry `Foo.txt` and query `foo`. -/
theorem C2_base950_amended_witness :
    score_entry fmNone witnessUb c2wrow "foo"
      = (950 + file_type_boost c2wrow.file_type
          + witnessUb c2wrow.click_count c2wrow.last_accessed,
         "exact", List.range "foo".length) :=
  (C2_base950_amended fmNone witnessUb c2wrow "foo" (by decide) (by decide)).1

theorem likeMatch_pct_only : ∀ s : List Char, likeMatch ['%'] s = true := by
  intro s
  induction s with
  | nil => rw [likeMatch.eq_2, likeMatch.eq_1]; rfl
  | cons c t ih => rw [likeMatch.eq_3, ih, Bool.or_true]

theorem likeMatch_pct_iff (p : List Char) :
    ∀ s, (likeMatch ('%' :: p) s = true ↔ ∃ n, likeMatch p (s.drop n) = true) := by
  intro s
  induction s with
  | nil =>
    rw [likeMatch.eq_2, Bool.or_false]
    constructor
    · intro h; exact ⟨0, h⟩
    · rintro ⟨n, hn⟩; rw [List.drop_nil] at hn; exact hn
  | cons c t ih =>
    rw [likeMatch.eq_3, Bool.or_eq_true]
    constructor
    · rintro (h | h)
      · exact ⟨0, h⟩
      · obtain ⟨n, hn⟩ := ih.mp h
        exact ⟨n + 1, by simpa using hn⟩
    · rintro ⟨n, hn⟩
      cases n with
      | zero => exact Or.inl hn
      | succ m =>
        rw [List.drop_succ_cons] at hn
        exact Or.inr (ih.mpr ⟨m, hn⟩)

theorem likeMatch_escL_iff (q : List Char) (hq : ∀ c ∈ q, c ≠ '\\') :
    ∀ s, (likeMatch (escL q ++ ['%']) s = true ↔ q.isPrefixOf s = true) := by
  induction q with
  | nil =>
    intro s
    constructor
    · intro _; cases s <;> rfl
    · intro _; exact likeMatch_pct_only s
  | cons c q' ih =>
    intro s
    have hc : c ≠ '\\' := hq c (List.mem_cons_self c q')
    have hq' : ∀ d ∈ q', d ≠ '\\' := fun d hd => hq d (List.mem_cons_of_mem c hd)
    by_cases h1 : c = '%'
    · subst h1
      show likeMatch ('\\' :: '%' :: (escL q' ++ ['%'])) s = true ↔ _
      cases s with
      | nil =>
        rw [likeMatch.eq_4]
        simp [List.isPrefixOf]
      | cons sc s' =>
        rw [likeMatch.eq_5, Bool.and_eq_true, decide_eq_true_eq]
        show _ ↔ ('%' == sc && q'.isPrefixOf s') = true
        rw [Bool.and_eq_true, beq_iff_eq]
        constructor
        · rintro ⟨h, hlm⟩; exact ⟨h.symm, (ih hq' s').mp hlm⟩
        · rintro ⟨h, hpf⟩; exact ⟨h.symm, (ih hq' s').mpr hpf⟩
    · by_cases h2 : c = '_'
      · subst h2
        show likeMatch ('\\' :: '_' :: (escL q' ++ ['%'])) s = true ↔ _
        cases s with
        | nil =>
          rw [likeMatch.eq_4]
          simp [List.isPrefixOf]
        | cons sc s' =>
          rw [likeMatch.eq_5, Bool.and_eq_true, decide_eq_true_eq]
          show _ ↔ ('_' == sc && q'.isPrefixOf s') = true
          rw [Bool.and_eq_true, beq_iff_eq]
          constructor
          · rintro ⟨h, hlm⟩; exact ⟨h.symm, (ih hq' s').mp hlm⟩
          · rintro ⟨h, hpf⟩; exact ⟨h.symm, (ih hq' s').mpr hpf⟩
      · have hesc2 : escChar c = [c] := by simp [escChar, h1, h2]
        have hfold : escL (c :: q') ++ ['%'] = c :: (escL q' ++ ['%']) := by
          show (escChar c ++ escL q') ++ ['%'] = _
          rw [hesc2]
          rfl
        rw [hfold]
        cases s with
        | nil =>
          rw [likeMatch.eq_9 c _ (fun hh => h1 hh) (fun _ _ hh _ => hc hh)
            (fun hh _ => hc hh) (fun hh => h2 hh)]
          simp [List.isPrefixOf]
        | cons sc s' =>
          rw [likeMatch.eq_10 c _ sc s' (fun hh => h1 hh) (fun _ _ hh _ => hc hh)
            (fun hh _ => hc hh) (fun hh => h2 hh)]
          rw [Bool.and_eq_true, decide_eq_true_eq]
          show _ ↔ (c == sc && q'.isPrefixOf s') = true
          rw [Bool.and_eq_true, beq_iff_eq]
          constructor
          · rintro ⟨h, hlm⟩; exact ⟨h.symm, (ih hq' s').mp hlm⟩
          · rintro ⟨h, hpf⟩; exact ⟨h.symm, (ih hq' s').mpr hpf⟩

theorem likeMatch_full_iff (q s : List Char) (hq : ∀ c ∈ q, c ≠ '\\') :
    likeMatch ('%' :: (escL q ++ ['%'])) s = true ↔ substrB q s = true := by
  rw [likeMatch_pct_iff]
  unfold substrB
  rw [List.any_eq_true]
  constructor
  · rintro ⟨n, hn⟩
    rw [likeMatch_escL_iff q hq] at hn
    by_cases hns : n ≤ s.length
    · exact ⟨n, List.mem_range.mpr (by omega), hn⟩
    · have hdrop : s.drop n = [] := List.drop_eq_nil_of_le (by omega)
      rw [hdrop] at hn
      refine ⟨s.length, List.mem_range.mpr (by omega), ?_⟩
      rw [List.drop_length]
      exact hn
  · rintro ⟨n, _, hn⟩
    exact ⟨n, (likeMatch_escL_iff q hq (s.drop n)).mpr hn⟩

theorem toNat_ofNat_small (n : Nat) (h : n < 55296) : (Char.ofNat n).toNat = n := by
  unfold Char.ofNat
  rw [dif_pos (Or.inl h)]
  rfl

theorem lowerChar_eq_nonalpha (c d : Char)
    (h1 : ¬(97 ≤ d.toNat ∧ d.toNat ≤ 122)) (h2 : ¬(65 ≤ d.toNat ∧ d.toNat ≤ 90)) :
    lowerChar c = d ↔ c = d := by
  unfold lowerChar
  by_cases h : 65 ≤ c.toNat ∧ c.toNat ≤ 90
  · rw [if_pos h]
    constructor
    · intro he
      have := congrArg Char.toNat he
      rw [toNat_ofNat_small (c.toNat + 32) (by omega)] at this
      exact absurd ⟨by omega, by omega⟩ h1
    · intro he
      subst he
      exact absurd h h2
  · rw [if_neg h]

theorem lowerChar_escChar (c : Char) : (escChar c).map lowerChar = escChar (lowerChar c) := by
  by_cases h1 : c = '%'
  · subst h1; rfl
  · by_cases h2 : c = '_'
    · subst h2; rfl
    · have e1 : escChar c = [c] := by simp [escChar, h1, h2]
      have hp : lowerChar c ≠ '%' := fun hh =>
        h1 ((lowerChar_eq_nonalpha c '%' (by decide) (by decide)).mp hh)
      have hu : lowerChar c ≠ '_' := fun hh =>
        h2 ((lowerChar_eq_nonalpha c '_' (by decide) (by decide)).mp hh)
      have e2 : escChar (lowerChar c) = [lowerChar c] := by simp [escChar, hp, hu]
      rw [e1, e2]
      rfl

theorem lowerL_escL (q : List Char) : lowerL (escL q) = escL (lowerL q) := by
  induction q with
  | nil => rfl
  | cons c q' ih =>
    show lowerL (escChar c ++ escL q') = escL (lowerChar c :: lowerL q')
    unfold lowerL
    rw [List.map_append]
    show (escChar c).map lowerChar ++ (escL q').map lowerChar
      = escChar (lowerChar c) ++ escL (lowerL q')
    rw [lowerChar_escChar c]
    unfold lowerL at ih
    rw [ih]
    rfl

theorem lowerL_no_bs (q : List Char) (hq : ∀ c ∈ q, c ≠ '\\') :
    ∀ c ∈ lowerL q, c ≠ '\\' := by
  intro c hc
  obtain ⟨c0, hc0, rfl⟩ := List.mem_map.mp hc
  intro hbs
  exact hq c0 hc0 ((lowerChar_eq_nonalpha c0 '\\' (by decide) (by decide)).mp hbs)

theorem rowMatches_iff (q : String) (r : FileEntry) (hq : ∀ c ∈ q.data, c ≠ '\\') :
    (rowMatches q r = true ↔
      (containsStr (lowerStr r.filename) (lowerStr q) = true ∨
       containsStr (lowerStr r.filepath) (lowerStr q) = true)) := by
  have hpat : lowerL (likePatternL q) = '%' :: (escL (lowerL q.data) ++ ['%']) := by
    show lowerL ('%' :: (escL q.data ++ ['%'])) = _
    unfold lowerL
    rw [List.map_cons, List.map_append]
    show lowerChar '%' :: ((escL q.data).map lowerChar ++ ['%'].map lowerChar) = _
    have h1 : lowerChar '%' = '%' := by decide
    have h2 : ['%'].map lowerChar = ['%'] := by decide
    rw [h1, h2]
    show '%' :: (lowerL (escL q.data) ++ ['%']) = _
    rw [lowerL_escL]
    rfl
  have hql : ∀ c ∈ lowerL q.data, c ≠ '\\' := lowerL_no_bs q.data hq
  unfold rowMatches
  rw [Bool.or_eq_true, hpat]
  rw [likeMatch_full_iff _ _ hql, likeMatch_full_iff _ _ hql]
  constructor
  · rintro (h | h)
    · exact Or.inl h
    · exact Or.inr h
  · rintro (h | h)
    · exact Or.inl h
    · exact Or.inr h

theorem key5GE_trans (a b c : Int × Int × Int × Int × Int)
    (h1 : key5GE a b = true) (h2 : key5GE b c = true) : key5GE a c = true := by
  simp only [key5GE, Bool.or_eq_true, Bool.and_eq_true, decide_eq_true_eq] at *
  omega

theorem key5GE_total (a b : Int × Int × Int × Int × Int) :
    (key5GE a b || key5GE b a) = true := by
  simp only [key5GE, Bool.or_eq_true, Bool.and_eq_true, decide_eq_true_eq]
  omega

theorem sqlLe_trans (q : String) (a b c : FileEntry)
    (h1 : sqlLe q a b = true) (h2 : sqlLe q b c = true) : sqlLe q a c = true :=
  key5GE_trans _ _ _ h1 h2

theorem sqlLe_total (q : String) (a b : FileEntry) : (sqlLe q a b || sqlLe q b a) = true :=
  key5GE_total _ _

/-- C1 (amended): for every query without a backslash, `search_files` returns
at most `limit` rows, each a stored row whose lower-cased filename or filepath
contains the lower-cased query as a literal substring; if no more than `limit`
rows match, every matching row is returned; and the output is ordered by the
five-component key: match score `exact(100) > filename-prefix(75) >
filename-substring(50) > filepath-substring(25)`, then file-type rank
`app(5) > shortcut(4) > document(3) > folder(2) > other(1)`, then
`click_count`, `last_accessed`, `modified_at`, all descending. -/
theorem C1_search_files_amended (t : List FileEntry) (q : String) (limit : Nat)
    (hq : ∀ c ∈ q.data, c ≠ '\\') :
    (search_files t q limit).length ≤ limit ∧
    List.Pairwise (fun a b => sqlLe q a b = true) (search_files t q limit) ∧
    (∀ r ∈ search_files t q limit, r ∈ t ∧
      (containsStr (lowerStr r.filename) (lowerStr q) = true ∨
       containsStr (lowerStr r.filepath) (lowerStr q) = true)) ∧
    ((t.filter (rowMatches q)).length ≤ limit →
      ∀ r ∈ t, (containsStr (lowerStr r.filename) (lowerStr q) = true ∨
        containsStr (lowerStr r.filepath) (lowerStr q) = true) →
      r ∈ search_files t q limit) := by
  refine ⟨?_, ?_, ?_, ?_⟩
  · unfold search_files
    simp [List.length_take]
  · unfold search_files
    exact List.Pairwise.sublist (List.take_sublist _ _)
      (List.sorted_mergeSort (sqlLe_trans q) (sqlLe_total q) _)
  · intro r hr
    unfold search_files at hr
    have hms : r ∈ (t.filter (rowMatches q)).mergeSort (sqlLe q) :=
      (List.take_sublist _ _).mem hr
    have hf : r ∈ t.filter (rowMatches q) := (List.mergeSort_perm _ _).mem_iff.mp hms
    obtain ⟨hrt, hrm⟩ := List.mem_filter.mp hf
    exact ⟨hrt, (rowMatches_iff q r hq).mp hrm⟩
  · intro hlen r hrt hsub
    have hrm : rowMatches q r = true := (rowMatches_iff q r hq).mpr hsub
    have hf : r ∈ t.filter (rowMatches q) := List.mem_filter.mpr ⟨hrt, hrm⟩
    have hms : r ∈ (t.filter (rowMatches q)).mergeSort (sqlLe q) :=
      (List.mergeSort_perm _ _).mem_iff.mpr hf
    unfold search_files
    have hlen2 : ((t.filter (rowMatches q)).mergeSort (sqlLe q)).length ≤ limit := by
      rw [(List.mergeSort_perm _ _).length_eq]
      exact hlen
    rw [List.take_of_length_le hlen2]
    exact hms

/-- C1 counterexample, in two parts.  Backslash: for the one-row table whose
filename is `a\b` and the query `\`, the filename does contain the query as
a literal substring, yet `search_files` returns nothing — the query escaping
handles `%` and `_` but not the escape character itself, so a backslash in the
query acts as a `LIKE` escape prefix instead of matching itself.  Tier: rows
`c1tierA` (file type `app`, query found only in the filepath) and `c1tierB`
(file type `other`, query found in the filename but neither an exact nor a
prefix match) both sit in the claim's single shared filename/filepath-substring
tier, so the claim's ordering — tier first, then file-type priority
`app(5) > other(1)` — puts `c1tierA` first; `search_files` returns `c1tierB`
first, because the code ranks a filename substring match (score 50) strictly
above a filepath substring match (score 25). -/
theorem C1_search_files_counterexample :
    (containsStr (lowerStr c1row.filename) (lowerStr "\\") = true ∧
     search_files [c1row] "\\" 10 = []) ∧
    (lowerStr c1tierA.filename ≠ lowerStr "doc" ∧
     (lowerStr "doc").data.isPrefixOf (lowerStr c1tierA.filename).data = false ∧
     containsStr (lowerStr c1tierA.filename) (lowerStr "doc") = false ∧
     containsStr (lowerStr c1tierA.filepath) (lowerStr "doc") = true ∧
     lowerStr c1tierB.filename ≠ lowerStr "doc" ∧
     (lowerStr "doc").data.isPrefixOf (lowerStr c1tierB.filename).data = false ∧
     containsStr (lowerStr c1tierB.filename) (lowerStr "doc") = true ∧
     c1tierA.file_type = "app" ∧ c1tierB.file_type = "other" ∧
     search_files [c1tierA, c1tierB] "doc" 10 = [c1tierB, c1tierA]) := by
  constructor
  · constructor
    · decide
    · have h1 : rowMatches "\\" c1row = false := by
        simp +decide [rowMatches, c1row, likePatternL, escL, escChar, lowerL, lowerChar,
          likeMatch.eq_1, likeMatch.eq_2, likeMatch.eq_3, likeMatch.eq_4, likeMatch.eq_5]
      have hf : [c1row].filter (rowMatches "\\") = [] := by
        rw [List.filter_cons, h1]
        rfl
      unfold search_files
      rw [hf, List.mergeSort_nil]
      rfl
  · refine ⟨by decide, by decide, by decide, by decide, by decide, by decide, by decide,
      rfl, rfl, ?_⟩
    have hRA : rowMatches "doc" c1tierA = true := by
      simp +decide [rowMatches, c1tierA, likePatternL, escL, escChar, lowerL, lowerChar,
        likeMatch.eq_1, likeMatch.eq_2, likeMatch.eq_3, likeMatch.eq_4, likeMatch.eq_5,
        likeMatch.eq_9, likeMatch.eq_10]
    have hRB : rowMatches "doc" c1tierB = true := by
      simp +decide [rowMatches, c1tierB, likePatternL, escL, escChar, lowerL, lowerChar,
        likeMatch.eq_1, likeMatch.eq_2, likeMatch.eq_3, likeMatch.eq_4, likeMatch.eq_5,
        likeMatch.eq_9, likeMatch.eq_10]
    have hA : matchScoreSql "doc" c1tierA = 25 := by
      simp +decide [matchScoreSql, c1tierA, likePatternL, prefixPatternL, escL, escChar,
        lowerL, lowerChar, lowerStr,
        likeMatch.eq_1, likeMatch.eq_2, likeMatch.eq_3, likeMatch.eq_4, likeMatch.eq_5,
        likeMatch.eq_9, likeMatch.eq_10]
    have hB : matchScoreSql "doc" c1tierB = 50 := by
      simp +decide [matchScoreSql, c1tierB, likePatternL, prefixPatternL, escL, escChar,
        lowerL, lowerChar, lowerStr,
        likeMatch.eq_1, likeMatch.eq_2, likeMatch.eq_3, likeMatch.eq_4, likeMatch.eq_5,
        likeMatch.eq_9, likeMatch.eq_10]
    have hAB : sqlLe "doc" c1tierA c1tierB = false := by
      simp only [sqlLe, sqlKey, hA, hB]
      decide
    have hne : c1tierA ≠ c1tierB := by decide
    have hfilter : [c1tierA, c1tierB].filter (rowMatches "doc") = [c1tierA, c1tierB] := by
      simp [List.filter_cons, hRA, hRB]
    have key : List.mergeSort [c1tierA, c1tierB] (sqlLe "doc") = [c1tierB, c1tierA] := by
      have hperm := List.mergeSort_perm [c1tierA, c1tierB] (sqlLe "doc")
      have hsort := List.sorted_mergeSort (sqlLe_trans "doc") (sqlLe_total "doc")
        [c1tierA, c1tierB]
      revert hperm hsort
      generalize (List.mergeSort [c1tierA, c1tierB] (sqlLe "doc")) = l
      intro hperm hsort
      have hlen : l.length = 2 := hperm.length_eq
      cases l with
      | nil => simp at hlen
      | cons x xs =>
        cases xs with
        | nil => simp at hlen
        | cons y ys =>
          cases ys with
          | cons z zs => simp at hlen
          | nil =>
            have hx : x ∈ [c1tierA, c1tierB] := hperm.mem_iff.mp (by simp)
            have hy : y ∈ [c1tierA, c1tierB] := hperm.mem_iff.mp (by simp)
            have hxy : sqlLe "doc" x y = true := (List.pairwise_cons.mp hsort).1 y (by simp)
            rcases List.mem_pair.mp hx with rfl | rfl
            · rcases List.mem_pair.mp hy with rfl | rfl
              · exfalso
                have hmem : c1tierB ∈ [c1tierA, c1tierA] := hperm.mem_iff.mpr (by simp)
                rcases List.mem_pair.mp hmem with h | h <;> exact hne h.symm
              · rw [hxy] at hAB
                cases hAB
            · rcases List.mem_pair.mp hy with rfl | rfl
              · rfl
              · exfalso
                have hmem : c1tierA ∈ [c1tierB, c1tierB] := hperm.mem_iff.mpr (by simp)
                rcases List.mem_pair.mp hmem with h | h <;> exact hne h
    unfold search_files
    rw [hfilter, key]
    rfl

/-- Witness for C1 on a concrete table and the backslash-free query `note`. -/
theorem C1_search_files_amended_witness :
    (search_files [c1wrow] "note" 5).length ≤ 5 ∧
    (∀ r ∈ search_files [c1wrow] "note" 5, r ∈ [c1wrow] ∧
      (containsStr (lowerStr r.filename) (lowerStr "note") = true ∨
       containsStr (lowerStr r.filepath) (lowerStr "note") = true)) := by
  have h := C1_search_files_amended [c1wrow] "note" 5 (by decide)
  exact ⟨h.1, h.2.2.1⟩
